import Mathlib

/-!
Verification of the contention-detection core of `platform-resource-manager`
(`prm/container.py` and `prm/allocator.py`).

The Python code is shallowly embedded: machine floats are modelled as exact
rationals (`ℚ`), Python dictionaries holding a fixed key set are modelled as
records, a Python `None`/exception outcome is modelled with `Option`, and the
`for` loops are modelled as structural recursions over lists that mirror the
loop bodies statement by statement.
-/

namespace PRM

/-- `owca.detectors.ContendedResource`: the resource kinds referenced by the
two source files (`CPUS`, `LLC`, `MEMORY_BW`, `TDP`, `UNKN`). -/
inductive Res
  | CPUS
  | LLC
  | MEMORY_BW
  | TDP
  | UNKN
deriving DecidableEq, Repr

/-- One utilization threshold bin of the threshold model: the dictionary
`{util_start, util_end, cpi, mpki, mb}` read by `Container.contention_detect`
and `Container._detect_in_bin` (container.py lines 164-248). -/
structure Thresh where
  util_start : ℚ
  util_end : ℚ
  cpi : ℚ
  mpki : ℚ
  mb : ℚ
deriving DecidableEq, Repr, Inhabited

/-- The derived-metric dictionary `self.metrics` of a `Container` once it has
been populated: `update_measurement` (container.py lines 117-148) always
assigns all nine keys together at an aggregation boundary. -/
structure Metrics where
  cyc : ℚ
  inst : ℚ
  l3miss : ℚ
  l3occ : ℚ
  cpi : ℚ
  l3mpki : ℚ
  util : ℚ
  mb : ℚ
  nf : ℚ
deriving DecidableEq, Repr, Inhabited

/-- Metric dictionary keys (the `Metric.*` string constants of
`prm.analyze.analyzer` used as keys of `self.metrics`). -/
inductive MKey
  | cyc
  | inst
  | l3miss
  | l3occ
  | cpi
  | l3mpki
  | util
  | mb
  | nf
deriving DecidableEq, Repr

/-- Dictionary lookup `self.metrics[columnname]` on a populated metric set. -/
def Metrics.get (m : Metrics) : MKey → ℚ
  | MKey.cyc => m.cyc
  | MKey.inst => m.inst
  | MKey.l3miss => m.l3miss
  | MKey.l3occ => m.l3occ
  | MKey.cpi => m.cpi
  | MKey.l3mpki => m.l3mpki
  | MKey.util => m.util
  | MKey.mb => m.mb
  | MKey.nf => m.nf

/-- An `owca.metrics.Metric` observability record as emitted by
`Container._append_metrics` (container.py lines 154-162); the constant
`task_id` label is omitted, keeping the name and value. -/
structure OwcaMetricE where
  name : String
  value : ℚ
deriving DecidableEq, Repr

/-- One raw counter snapshot `measurements` handed to
`Container.update_measurement`: the `MetricName.*` keys read by
container.py lines 114-148. -/
structure Meas where
  llc_occupancy : ℚ
  cycles : ℚ
  instructions : ℚ
  cache_misses : ℚ
  cpu_usage : ℚ
  mem_bw : ℚ
deriving DecidableEq, Repr, Inhabited

/-- The mutable state of one `Container` (container.py lines 39-47).
`metrics = none` models the initially empty `self.metrics` dictionary;
`some _` models the fully populated dictionary (all nine keys are always
assigned together).  `measurements = none` models the initial
`self.measurements = None`. -/
structure Container where
  cid : String
  metrics : Option Metrics
  measurements : Option Meas
  timestamp : ℚ
  total_llc_occu : ℚ
  llc_cnt : ℕ
  history_depth : ℕ
  metrics_history : List Metrics
deriving DecidableEq, Repr

/-- `Container.__init__(cid, history_depth=5)`: `self.history_depth` is
stored as `history_depth + 1` and bounds the metrics-history deque. -/
def Container.mkNew (cid : String) (history_depth : ℕ := 5) : Container :=
  { cid := cid
    metrics := none
    measurements := none
    timestamp := 0
    total_llc_occu := 0
    llc_cnt := 0
    history_depth := history_depth + 1
    metrics_history := [] }

/-- `Container._get_history_delta_by_Type(columnname)` (container.py lines
58-74): 0 on empty history, the sole entry on a singleton history, otherwise
the newest entry minus the arithmetic mean of all older entries. -/
def Container.get_history_delta_by_Type (c : Container) (columnname : MKey) : ℚ :=
  let length := c.metrics_history.length
  if length = 0 then 0
  else if length = 1 then (c.metrics_history.getD (length - 1) default).get columnname
  else
    let data_sum := ((c.metrics_history.take (length - 1)).map (fun mt => mt.get columnname)).sum
    (c.metrics_history.getD (length - 1) default).get columnname -
      data_sum / ((length - 1 : ℕ) : ℚ)

/-- `Container.get_llcoccupany_delta` (container.py lines 76-77). -/
def Container.get_llcoccupany_delta (c : Container) : ℚ :=
  c.get_history_delta_by_Type MKey.l3occ

/-- `Container.get_freq_delta` (container.py lines 79-80). -/
def Container.get_freq_delta (c : Container) : ℚ :=
  c.get_history_delta_by_Type MKey.nf

/-- `Container.get_latest_mbt` (container.py lines 82-85): 0 when `Metric.MB`
is not yet a key of `self.metrics` (empty dictionary), else the stored value. -/
def Container.get_latest_mbt (c : Container) : ℚ :=
  match c.metrics with
  | none => 0
  | some mt => mt.mb

/-- `Container._detect_in_bin(thresh)` (container.py lines 164-204), given the
populated `self.metrics`.  Returns the `(cond_res, owca_metrics)` pair: no
anomaly and no diagnostics when CPI is within the bin's threshold; otherwise
CPI diagnostics plus an LLC anomaly when MPKI exceeds its threshold, a
MEMORY_BW anomaly when bandwidth is below its threshold, and an UNKN anomaly
when neither sub-condition fired (`unknown_reason` stays `True`). -/
def detect_in_bin (m : Metrics) (thresh : Thresh) : List Res × List OwcaMetricE :=
  if thresh.cpi < m.cpi then
    let oms0 : List OwcaMetricE := [⟨"cpi", m.cpi⟩, ⟨"cpi_threshold", thresh.cpi⟩]
    let step1 : List Res × List OwcaMetricE :=
      if thresh.mpki < m.l3mpki then
        ([Res.LLC], oms0 ++ [⟨"mpki", m.l3mpki⟩, ⟨"mpki_threshold", thresh.mpki⟩])
      else ([], oms0)
    let step2 : List Res × List OwcaMetricE :=
      if m.mb < thresh.mb then
        (step1.1 ++ [Res.MEMORY_BW], step1.2 ++ [⟨"mb", m.mb⟩, ⟨"mb_threshold", thresh.mb⟩])
      else step1
    if ¬ thresh.mpki < m.l3mpki ∧ ¬ m.mb < thresh.mb then
      (step2.1 ++ [Res.UNKN], step2.2)
    else step2
  else ([], [])

/-- The `for i in range(0, len(threshs))` loop of
`Container.contention_detect` (container.py lines 238-248), carrying the
previously visited bin (`threshs[i-1]`; `none` at `i = 0`).  A `none` result
models the Python loop falling off the end and the method returning `None`
(which in fact never happens for a nonempty bin list). -/
def contention_detect_loop (m : Metrics) : List Thresh → Option Thresh → Option (List Res × List OwcaMetricE)
  | [], _ => none
  | [t], prev =>
      if m.util < t.util_start then
        match prev with
        | none => some ([], [])
        | some p => some (detect_in_bin m p)
      else some (detect_in_bin m t)
  | t :: t2 :: rest, prev =>
      if m.util < t.util_start then
        match prev with
        | none => some ([], [])
        | some p => some (detect_in_bin m p)
      else if m.util < t.util_end then some (detect_in_bin m t)
      else contention_detect_loop m (t2 :: rest) (some t)

/-- `Container.contention_detect(threshs)` (container.py lines 232-248),
given the populated `self.metrics`: an empty (falsy) bin list short-circuits
to `([], [])`, otherwise the linear bin scan runs. -/
def contention_detect (m : Metrics) (threshs : List Thresh) : Option (List Res × List OwcaMetricE) :=
  if threshs.isEmpty then some ([], [])
  else contention_detect_loop m threshs none

/-- The ordering assumed of a threshold-bin sequence: each bin's start is at
most its end, and consecutive bins do not overlap. -/
def binsOrdered : List Thresh → Prop
  | [] => True
  | [t] => t.util_start ≤ t.util_end
  | t :: t2 :: rest => t.util_start ≤ t.util_end ∧ t.util_end ≤ t2.util_start ∧ binsOrdered (t2 :: rest)

/-- The unconditional LLC-occupancy sampling at the top of
`Container.update_measurement` (container.py lines 114-116): a positive
occupancy sample is accumulated and counted every cycle. -/
def sampleLlc (c : Container) (m : Meas) : Container :=
  if 0 < m.llc_occupancy then
    { c with total_llc_occu := c.total_llc_occu + m.llc_occupancy, llc_cnt := c.llc_cnt + 1 }
  else c

/-- `deque(maxlen=self.history_depth).append`: the bounded metric-history
push of `Container._update_metrics_history` (container.py lines 55-56). -/
def pushHistory (history : List Metrics) (depth : ℕ) (mt : Metrics) : List Metrics :=
  let l := history ++ [mt]
  if depth < l.length then l.drop (l.length - depth) else l

/-- The derived-metric block of `Container.update_measurement`
(container.py lines 118-147), run when a previous raw snapshot exists and the
cycle is an aggregation boundary.  A `none` result models a
`ZeroDivisionError`: dividing the occupancy accumulator by a zero
`self.llc_cnt` (line 126), or dividing by a zero elapsed time `delta_t`
(lines 137-142).  The divisions by a zero instructions-delta and by a zero
utilization are guarded by the code itself and yield 0. -/
def computeMetrics (c : Container) (prev : Meas) (timestamp : ℚ) (m : Meas) : Option Metrics :=
  if c.llc_cnt = 0 then none
  else
    let delta_t := timestamp - c.timestamp
    if delta_t = 0 then none
    else
      let cyc := m.cycles - prev.cycles
      let inst := m.instructions - prev.instructions
      let l3miss := m.cache_misses - prev.cache_misses
      let l3occ := c.total_llc_occu / (c.llc_cnt : ℚ) / 1024
      let cpi := if inst = 0 then 0 else cyc / inst
      let l3mpki := if inst = 0 then 0 else l3miss * 1000 / inst
      let util := (m.cpu_usage - prev.cpu_usage) * 100 / (delta_t * 1000000000)
      let mb := (m.mem_bw - prev.mem_bw) / 1024 / 1024 / delta_t
      let nf := if util = 0 then 0 else cyc / delta_t / 10000 / util
      some ⟨cyc, inst, l3miss, l3occ, cpi, l3mpki, util, mb, nf⟩

/-- `Container.update_measurement(timestamp, measurements, agg)`
(container.py lines 109-152).  `none` models the call raising an exception
(the whole `allocate` cycle dies); `some` is the updated container state:
at an aggregation boundary with a previous snapshot the derived metrics are
recomputed, the occupancy accumulator is reset, the history is pushed, and
the reference snapshot advances; a non-boundary cycle only samples occupancy;
the first ever call just stores the reference snapshot. -/
def Container.update_measurement (c0 : Container) (timestamp : ℚ) (m : Meas) (agg : Bool) : Option Container :=
  let c := sampleLlc c0 m
  match c.measurements with
  | some prev =>
      if agg then
        match computeMetrics c prev timestamp m with
        | none => none
        | some mt =>
            some { c with metrics := some mt
                          total_llc_occu := 0
                          llc_cnt := 0
                          metrics_history := pushHistory c.metrics_history c.history_depth mt
                          measurements := some m
                          timestamp := timestamp }
      else some c
  | none => some { c with measurements := some m, timestamp := timestamp }

/-- The per-resource delta of the contender scan in
`ResourceAllocator._detect_contenders` (allocator.py lines 106-114):
`delta` starts at 0 and is set by the matching `elif` branch. -/
def resourceDelta (resource : Res) (container : Container) : ℚ :=
  if resource = Res.LLC then container.get_llcoccupany_delta
  else if resource = Res.MEMORY_BW then container.get_latest_mbt
  else if resource = Res.TDP then container.get_freq_delta
  else 0

/-- `delta > resource_delta_max` where `resource_delta_max` starts at
`-np.Inf` (modelled by `none`). -/
def gtMaxQ (delta : ℚ) : Option ℚ → Bool
  | none => true
  | some mx => decide (mx < delta)

/-- The `for cid, container in self.container_map.items()` loop of
`ResourceAllocator._detect_contenders` (allocator.py lines 105-118), carrying
the running `contender_id` and `resource_delta_max`.  The container map is a
list in dictionary insertion order; the loop skips the contended task itself
and records the first task whose delta is positive and strictly above the
running maximum. -/
def detect_contenders_loop (selfCid : String) (resource : Res) :
    List Container → Option String → Option ℚ → Option String
  | [], contender_id, _ => contender_id
  | container :: rest, contender_id, mx =>
      if selfCid = container.cid then
        detect_contenders_loop selfCid resource rest contender_id mx
      else
        let delta := resourceDelta resource container
        if 0 < delta ∧ gtMaxQ delta mx = true then
          detect_contenders_loop selfCid resource rest (some container.cid) (some delta)
        else detect_contenders_loop selfCid resource rest contender_id mx

/-- `ResourceAllocator._detect_contenders(con, resource)` (allocator.py lines
98-123): `UNKN` returns no contender immediately; otherwise the scan runs and
the final `if contender_id:` keeps the winner only when it is truthy (a
non-`None`, nonempty id string). -/
def detect_contenders (con : Container) (resource : Res) (container_map : List Container) : List String :=
  if resource = Res.UNKN then []
  else
    match detect_contenders_loop con.cid resource container_map none none with
    | none => []
    | some s => if s = "" then [] else [s]

/-- Identity of the external budgeting-controller objects built in
`ResourceAllocator.__init__` (allocator.py lines 76-85): the CPU-cycle, the
LLC-occupancy and the memory-bandwidth `NaiveController`. -/
inductive CtlId
  | cpu
  | llc
  | mb
deriving DecidableEq, Repr

/-- The `self.controllers` dictionary (allocator.py lines 83-85): which
controller object each of its three fixed keys currently references. -/
structure Controllers where
  cpus : CtlId
  llc : CtlId
  memory_bw : CtlId
deriving DecidableEq, Repr

/-- The controller map as built in detect-mode `__init__`. -/
def initControllers : Controllers := ⟨CtlId.cpu, CtlId.llc, CtlId.mb⟩

/-- The allocator state relevant to memory-bandwidth control capability:
`self.mbc_enabled` and `self.controllers`. -/
structure AllocState where
  mbc_enabled : Bool
  controllers : Controllers
deriving DecidableEq, Repr

/-- Detect-mode `__init__` state: `mbc_enabled = True` and the three distinct
controllers (allocator.py lines 78-85). -/
def initAllocState : AllocState := ⟨true, initControllers⟩

/-- The capability branch of `allocate` (allocator.py lines 379-385): an
enabled `rdt_mb_control` snapshot only sets `mbc_enabled`; a disabled one
clears it and re-points `controllers[MEMORY_BW]` at `controllers[CPUS]`. -/
def updateMbcStep (s : AllocState) (rdt_mb_control_enabled : Bool) : AllocState :=
  if rdt_mb_control_enabled then { s with mbc_enabled := true }
  else { mbc_enabled := false
         controllers := { s.controllers with memory_bw := s.controllers.cpus } }

/-- The capability branch iterated over a sequence of per-cycle platform
snapshots. -/
def runMbcSteps (s : AllocState) (flags : List Bool) : AllocState :=
  flags.foldl updateMbcStep s

/-- `if contention in self.controllers` (allocator.py line 347): the
controller registered for a resource kind, if any. -/
def lookupController (ctl : Controllers) : Res → Option CtlId
  | Res.CPUS => some ctl.cpus
  | Res.LLC => some ctl.llc
  | Res.MEMORY_BW => some ctl.memory_bw
  | Res.TDP => none
  | Res.UNKN => none

/-- `contentions[anomaly.resource] = True` (allocator.py line 345) on a
dictionary modelled as an insertion-ordered association list: set the first
matching key to `True`, or append a new key. -/
def setFlag : List (Res × Bool) → Res → List (Res × Bool)
  | [], r => [(r, true)]
  | (a, b) :: rest, r => if a = r then (a, true) :: rest else (a, b) :: setFlag rest r

/-- The `contentions` dictionary of `ResourceAllocator._allocate_resources`
(allocator.py lines 339-345): seeded with `LLC`, `MEMORY_BW` and `UNKN` all
`False`, then set per anomaly resource. -/
def contentionFlags (anomalies : List Res) : List (Res × Bool) :=
  anomalies.foldl setFlag [(Res.LLC, false), (Res.MEMORY_BW, false), (Res.UNKN, false)]

/-- One `controller.update(self.bes, self.lcs, flag, False)` call: the
controller object it is dispatched to and the contention flag it carries. -/
structure UpdateCall where
  target : CtlId
  flag : Bool
deriving DecidableEq, Repr

/-- `ResourceAllocator._allocate_resources(anomalies)` (allocator.py lines
338-348): aggregate the cycle's anomalies into per-resource flags and
dispatch each flag whose resource has a registered controller. -/
def allocate_resources (ctl : Controllers) (anomalies : List Res) : List UpdateCall :=
  (contentionFlags anomalies).filterMap fun rb =>
    (lookupController ctl rb.1).map fun t => UpdateCall.mk t rb.2

/-- The controller dispatches of one detect-mode `allocate` cycle: first the
capability branch updates the controller map (allocator.py lines 379-385),
then `_process_measurements` sends the CPU controller its own margin update
when best-effort tasks exist (line 336), then `_allocate_resources`
dispatches the aggregated contention flags (line 402). -/
def detectModeDispatch (s : AllocState) (rdt_mb_control_enabled hasBes marginExceed : Bool)
    (anomalies : List Res) : AllocState × List UpdateCall :=
  let s2 := updateMbcStep s rdt_mb_control_enabled
  let marginCalls := if hasBes then [UpdateCall.mk s2.controllers.cpus marginExceed] else []
  (s2, marginCalls ++ allocate_resources s2.controllers anomalies)

/-- `self.agg_cnt` (allocator.py lines 51-52): the true (float) quotient when
the aggregation period divides evenly by the action delay, else 1. -/
def aggCnt (agg_period action_delay : ℕ) : ℚ :=
  if agg_period % action_delay = 0 then (agg_period : ℚ) / (action_delay : ℚ) else 1

/-- The counter step at the top of `allocate` (allocator.py lines 363-368):
increment, then compare with `agg_cnt`; on equality reset to 0 and mark the
cycle an aggregation boundary. -/
def stepAgg (agg_cnt : ℚ) (counter : ℕ) : ℕ × Bool :=
  if ((counter + 1 : ℕ) : ℚ) = agg_cnt then (0, true) else (counter + 1, false)

/-- The counter state after `n` calls to `allocate`, starting from the
constructor state `counter = 0`, `agg = False` (allocator.py lines 54-55). -/
def runAgg (agg_cnt : ℚ) : ℕ → ℕ × Bool
  | 0 => (0, false)
  | n + 1 => stepAgg agg_cnt (runAgg agg_cnt n).1

/-- The value stored under a resource key of the `contentions` association
list, if the key is present. -/
def findFlag (acc : List (Res × Bool)) (r : Res) : Option Bool :=
  (acc.find? fun rb => rb.1 == r).map fun rb => rb.2

/-! ## Helper lemmas -/

theorem sampleLlc_measurements (c : Container) (m : Meas) :
    (sampleLlc c m).measurements = c.measurements := by
  unfold sampleLlc; split <;> rfl

theorem sampleLlc_timestamp (c : Container) (m : Meas) :
    (sampleLlc c m).timestamp = c.timestamp := by
  unfold sampleLlc; split <;> rfl

theorem computeMetrics_eq (c : Container) (prev : Meas) (ts : ℚ) (m : Meas)
    (hllc : c.llc_cnt ≠ 0) (hdt : ts - c.timestamp ≠ 0) :
    computeMetrics c prev ts m = some
      { cyc := m.cycles - prev.cycles
        inst := m.instructions - prev.instructions
        l3miss := m.cache_misses - prev.cache_misses
        l3occ := c.total_llc_occu / (c.llc_cnt : ℚ) / 1024
        cpi := if m.instructions - prev.instructions = 0 then 0
               else (m.cycles - prev.cycles) / (m.instructions - prev.instructions)
        l3mpki := if m.instructions - prev.instructions = 0 then 0
                  else (m.cache_misses - prev.cache_misses) * 1000 / (m.instructions - prev.instructions)
        util := (m.cpu_usage - prev.cpu_usage) * 100 / ((ts - c.timestamp) * 1000000000)
        mb := (m.mem_bw - prev.mem_bw) / 1024 / 1024 / (ts - c.timestamp)
        nf := if (m.cpu_usage - prev.cpu_usage) * 100 / ((ts - c.timestamp) * 1000000000) = 0 then 0
              else (m.cycles - prev.cycles) / (ts - c.timestamp) / 10000 /
                ((m.cpu_usage - prev.cpu_usage) * 100 / ((ts - c.timestamp) * 1000000000)) } := by
  simp only [computeMetrics]
  rw [if_neg hllc, if_neg hdt]

theorem update_measurement_boundary (c : Container) (prev : Meas) (ts : ℚ) (m : Meas) (mt : Metrics)
    (hprev : c.measurements = some prev)
    (hcm : computeMetrics (sampleLlc c m) prev ts m = some mt) :
    c.update_measurement ts m true = some
      { sampleLlc c m with
          metrics := some mt
          total_llc_occu := 0
          llc_cnt := 0
          metrics_history := pushHistory (sampleLlc c m).metrics_history (sampleLlc c m).history_depth mt
          measurements := some m
          timestamp := ts } := by
  simp only [Container.update_measurement]
  rw [sampleLlc_measurements, hprev]
  simp [hcm]

theorem binsOrdered_head_le {t : Thresh} {rest : List Thresh} (h : binsOrdered (t :: rest)) :
    t.util_start ≤ t.util_end := by
  cases rest with
  | nil => exact h
  | cons t2 r => exact h.1

theorem binsOrdered_tail {t t2 : Thresh} {rest : List Thresh} (h : binsOrdered (t :: t2 :: rest)) :
    binsOrdered (t2 :: rest) := h.2.2

theorem binsOrdered_adj {t t2 : Thresh} {rest : List Thresh} (h : binsOrdered (t :: t2 :: rest)) :
    t.util_end ≤ t2.util_start := h.2.1

theorem binsOrdered_start_le_end :
    ∀ (l : List Thresh), binsOrdered l →
      ∀ i (hi : i < l.length), (l.get ⟨i, hi⟩).util_start ≤ (l.get ⟨i, hi⟩).util_end := by
  intro l
  induction l with
  | nil => intro _ i hi; simp at hi
  | cons t rest ih =>
    intro h i hi
    cases i with
    | zero => exact binsOrdered_head_le h
    | succ j =>
      cases rest with
      | nil => simp at hi
      | cons t2 r =>
        exact ih (binsOrdered_tail h) j (by simpa using hi)

theorem binsOrdered_end_le_start :
    ∀ (rest : List Thresh) (t : Thresh), binsOrdered (t :: rest) →
      ∀ i (hi : i < rest.length), t.util_end ≤ (rest.get ⟨i, hi⟩).util_start := by
  intro rest
  induction rest with
  | nil => intro t _ i hi; simp at hi
  | cons t2 r ih =>
    intro t h i hi
    cases i with
    | zero => exact binsOrdered_adj h
    | succ j =>
      have hj : j < r.length := by simpa using hi
      calc t.util_end ≤ t2.util_start := binsOrdered_adj h
        _ ≤ t2.util_end := binsOrdered_head_le (binsOrdered_tail h)
        _ ≤ _ := ih t2 (binsOrdered_tail h) j hj

theorem contention_detect_loop_below_head (m : Metrics) (t : Thresh) (rest : List Thresh)
    (p : Thresh) (hlt : m.util < t.util_start) :
    contention_detect_loop m (t :: rest) (some p) = some (detect_in_bin m p) := by
  cases rest with
  | nil => simp only [contention_detect_loop]; rw [if_pos hlt]
  | cons t2 r => simp only [contention_detect_loop]; rw [if_pos hlt]

theorem contention_detect_loop_hit (m : Metrics) :
    ∀ (l : List Thresh) (prev : Option Thresh) (i : ℕ) (hi : i < l.length),
      binsOrdered l →
      (l.get ⟨i, hi⟩).util_start ≤ m.util →
      (m.util < (l.get ⟨i, hi⟩).util_end ∨ i = l.length - 1) →
      contention_detect_loop m l prev = some (detect_in_bin m (l.get ⟨i, hi⟩)) := by
  intro l
  induction l with
  | nil => intro prev i hi; simp at hi
  | cons t rest ih =>
    intro prev i hi hord hstart hdisj
    cases i with
    | zero =>
      have hns : ¬ m.util < t.util_start := not_lt.mpr hstart
      cases rest with
      | nil =>
        simp only [contention_detect_loop]
        rw [if_neg hns]
        rfl
      | cons t2 r =>
        have hlt : m.util < t.util_end := by
          rcases hdisj with h | h
          · exact h
          · simp at h
        simp only [contention_detect_loop]
        rw [if_neg hns, if_pos hlt]
        rfl
    | succ j =>
      cases rest with
      | nil => simp at hi
      | cons t2 r =>
        have hj : j < (t2 :: r).length := by simpa using hi
        have hts : t.util_end ≤ ((t2 :: r).get ⟨j, hj⟩).util_start :=
          binsOrdered_end_le_start (t2 :: r) t hord j hj
        have hstart2 : ((t2 :: r).get ⟨j, hj⟩).util_start ≤ m.util := hstart
        have h1 : ¬ m.util < t.util_start :=
          not_lt.mpr (le_trans (binsOrdered_head_le hord) (le_trans hts hstart2))
        have h2 : ¬ m.util < t.util_end := not_lt.mpr (le_trans hts hstart2)
        have hdisj2 : m.util < ((t2 :: r).get ⟨j, hj⟩).util_end ∨ j = (t2 :: r).length - 1 := by
          rcases hdisj with h | h
          · exact Or.inl h
          · right
            simp only [List.length_cons] at h ⊢
            omega
        simp only [contention_detect_loop]
        rw [if_neg h1, if_neg h2]
        exact ih (some t) j hj (binsOrdered_tail hord) hstart2 hdisj2

theorem contention_detect_loop_gap (m : Metrics) :
    ∀ (l : List Thresh) (prev : Option Thresh) (i : ℕ) (hi1 : i + 1 < l.length),
      binsOrdered l →
      m.util < (l.get ⟨i + 1, hi1⟩).util_start →
      (l.get ⟨i, Nat.lt_of_succ_lt hi1⟩).util_end ≤ m.util →
      contention_detect_loop m l prev = some (detect_in_bin m (l.get ⟨i, Nat.lt_of_succ_lt hi1⟩)) := by
  intro l
  induction l with
  | nil => intro prev i hi1; simp at hi1
  | cons t rest ih =>
    intro prev i hi1 hord hlt hge
    cases i with
    | zero =>
      cases rest with
      | nil => simp at hi1
      | cons t2 r =>
        have h1 : ¬ m.util < t.util_start :=
          not_lt.mpr (le_trans (binsOrdered_head_le hord) hge)
        have h2 : ¬ m.util < t.util_end := not_lt.mpr hge
        simp only [contention_detect_loop]
        rw [if_neg h1, if_neg h2]
        exact contention_detect_loop_below_head m t2 r t hlt
    | succ j =>
      cases rest with
      | nil => simp at hi1
      | cons t2 r =>
        have hj1 : j + 1 < (t2 :: r).length := by simpa using hi1
        have hge2 : ((t2 :: r).get ⟨j, Nat.lt_of_succ_lt hj1⟩).util_end ≤ m.util := hge
        have hlt2 : m.util < ((t2 :: r).get ⟨j + 1, hj1⟩).util_start := hlt
        have hchain : t.util_end ≤ ((t2 :: r).get ⟨j, Nat.lt_of_succ_lt hj1⟩).util_start :=
          binsOrdered_end_le_start (t2 :: r) t hord j (Nat.lt_of_succ_lt hj1)
        have hse : ((t2 :: r).get ⟨j, Nat.lt_of_succ_lt hj1⟩).util_start ≤
            ((t2 :: r).get ⟨j, Nat.lt_of_succ_lt hj1⟩).util_end :=
          binsOrdered_start_le_end (t2 :: r) (binsOrdered_tail hord) j (Nat.lt_of_succ_lt hj1)
        have h1 : ¬ m.util < t.util_start :=
          not_lt.mpr (le_trans (binsOrdered_head_le hord)
            (le_trans hchain (le_trans hse hge2)))
        have h2 : ¬ m.util < t.util_end :=
          not_lt.mpr (le_trans hchain (le_trans hse hge2))
        simp only [contention_detect_loop]
        rw [if_neg h1, if_neg h2]
        exact ih (some t) j hj1 (binsOrdered_tail hord) hlt2 hge2

theorem contention_detect_of_ne_nil (m : Metrics) (threshs : List Thresh) (hne : threshs ≠ []) :
    contention_detect m threshs = contention_detect_loop m threshs none := by
  unfold contention_detect
  rw [if_neg (by simpa [List.isEmpty_iff] using hne)]

theorem detect_contenders_loop_invar (selfCid : String) (resource : Res) :
    ∀ (l : List Container) (s : String) (M : ℚ), 0 < M →
      (detect_contenders_loop selfCid resource l (some s) (some M) = some s ∧
        ∀ j (hj : j < l.length), selfCid ≠ (l.get ⟨j, hj⟩).cid →
          resourceDelta resource (l.get ⟨j, hj⟩) ≤ M) ∨
      (∃ i, ∃ hi : i < l.length,
        selfCid ≠ (l.get ⟨i, hi⟩).cid ∧
        M < resourceDelta resource (l.get ⟨i, hi⟩) ∧
        detect_contenders_loop selfCid resource l (some s) (some M) =
          some (l.get ⟨i, hi⟩).cid ∧
        (∀ j (hj : j < l.length), j < i → selfCid ≠ (l.get ⟨j, hj⟩).cid →
          resourceDelta resource (l.get ⟨j, hj⟩) < resourceDelta resource (l.get ⟨i, hi⟩)) ∧
        (∀ j (hj : j < l.length), selfCid ≠ (l.get ⟨j, hj⟩).cid →
          resourceDelta resource (l.get ⟨j, hj⟩) ≤ resourceDelta resource (l.get ⟨i, hi⟩))) := by
  intro l
  induction l with
  | nil =>
    intro s M _
    left
    exact ⟨rfl, fun j hj => by simp at hj⟩
  | cons c rest ih =>
    intro s M hM
    by_cases hself : selfCid = c.cid
    · have hred : detect_contenders_loop selfCid resource (c :: rest) (some s) (some M) =
          detect_contenders_loop selfCid resource rest (some s) (some M) := by
        simp only [detect_contenders_loop]
        rw [if_pos hself]
      rcases ih s M hM with ⟨heq, hall⟩ | ⟨i, hi, hns, hMlt, heq, hprevlt, halle⟩
      · left
        refine ⟨hred.trans heq, ?_⟩
        intro j hj hne
        cases j with
        | zero => exact absurd hself hne
        | succ j' => exact hall j' (by simpa using hj) hne
      · right
        refine ⟨i + 1, Nat.succ_lt_succ hi, hns, hMlt, hred.trans heq, ?_, ?_⟩
        · intro j hj hji hne
          cases j with
          | zero => exact absurd hself hne
          | succ j' => exact hprevlt j' (by simpa using hj) (by omega) hne
        · intro j hj hne
          cases j with
          | zero => exact absurd hself hne
          | succ j' => exact halle j' (by simpa using hj) hne
    · by_cases hcond : 0 < resourceDelta resource c ∧ gtMaxQ (resourceDelta resource c) (some M) = true
      · have hMd : M < resourceDelta resource c := by
          have := hcond.2
          simpa [gtMaxQ] using this
        have hred : detect_contenders_loop selfCid resource (c :: rest) (some s) (some M) =
            detect_contenders_loop selfCid resource rest (some c.cid)
              (some (resourceDelta resource c)) := by
          simp only [detect_contenders_loop]
          rw [if_neg hself, if_pos hcond]
        rcases ih c.cid (resourceDelta resource c) hcond.1 with
          ⟨heq, hall⟩ | ⟨i, hi, hns, hlt, heq, hprevlt, halle⟩
        · right
          refine ⟨0, Nat.succ_pos _, hself, hMd, hred.trans heq, ?_, ?_⟩
          · intro j hj hji _
            omega
          · intro j hj hne
            cases j with
            | zero => exact le_refl _
            | succ j' => exact hall j' (by simpa using hj) hne
        · right
          refine ⟨i + 1, Nat.succ_lt_succ hi, hns, lt_trans hMd hlt, hred.trans heq, ?_, ?_⟩
          · intro j hj hji hne
            cases j with
            | zero => exact hlt
            | succ j' => exact hprevlt j' (by simpa using hj) (by omega) hne
          · intro j hj hne
            cases j with
            | zero => exact le_of_lt hlt
            | succ j' => exact halle j' (by simpa using hj) hne
      · have hdM : resourceDelta resource c ≤ M := by
          by_contra hgt
          push_neg at hgt
          exact hcond ⟨lt_trans hM hgt, by simpa [gtMaxQ] using hgt⟩
        have hred : detect_contenders_loop selfCid resource (c :: rest) (some s) (some M) =
            detect_contenders_loop selfCid resource rest (some s) (some M) := by
          simp only [detect_contenders_loop]
          rw [if_neg hself, if_neg hcond]
        rcases ih s M hM with ⟨heq, hall⟩ | ⟨i, hi, hns, hlt, heq, hprevlt, halle⟩
        · left
          refine ⟨hred.trans heq, ?_⟩
          intro j hj hne
          cases j with
          | zero => exact hdM
          | succ j' => exact hall j' (by simpa using hj) hne
        · right
          refine ⟨i + 1, Nat.succ_lt_succ hi, hns, hlt, hred.trans heq, ?_, ?_⟩
          · intro j hj hji hne
            cases j with
            | zero => exact lt_of_le_of_lt hdM hlt
            | succ j' => exact hprevlt j' (by simpa using hj) (by omega) hne
          · intro j hj hne
            cases j with
            | zero => exact le_trans hdM (le_of_lt hlt)
            | succ j' => exact halle j' (by simpa using hj) hne

theorem detect_contenders_loop_top (selfCid : String) (resource : Res) :
    ∀ l : List Container,
      (detect_contenders_loop selfCid resource l none none = none ∧
        ∀ j (hj : j < l.length), selfCid ≠ (l.get ⟨j, hj⟩).cid →
          resourceDelta resource (l.get ⟨j, hj⟩) ≤ 0) ∨
      (∃ i, ∃ hi : i < l.length,
        selfCid ≠ (l.get ⟨i, hi⟩).cid ∧
        0 < resourceDelta resource (l.get ⟨i, hi⟩) ∧
        detect_contenders_loop selfCid resource l none none = some (l.get ⟨i, hi⟩).cid ∧
        (∀ j (hj : j < l.length), j < i → selfCid ≠ (l.get ⟨j, hj⟩).cid →
          resourceDelta resource (l.get ⟨j, hj⟩) < resourceDelta resource (l.get ⟨i, hi⟩)) ∧
        (∀ j (hj : j < l.length), selfCid ≠ (l.get ⟨j, hj⟩).cid →
          resourceDelta resource (l.get ⟨j, hj⟩) ≤ resourceDelta resource (l.get ⟨i, hi⟩))) := by
  intro l
  induction l with
  | nil =>
    left
    exact ⟨rfl, fun j hj => by simp at hj⟩
  | cons c rest ih =>
    by_cases hself : selfCid = c.cid
    · have hred : detect_contenders_loop selfCid resource (c :: rest) none none =
          detect_contenders_loop selfCid resource rest none none := by
        simp only [detect_contenders_loop]
        rw [if_pos hself]
      rcases ih with ⟨heq, hall⟩ | ⟨i, hi, hns, hpos, heq, hprevlt, halle⟩
      · left
        refine ⟨hred.trans heq, ?_⟩
        intro j hj hne
        cases j with
        | zero => exact absurd hself hne
        | succ j' => exact hall j' (by simpa using hj) hne
      · right
        refine ⟨i + 1, Nat.succ_lt_succ hi, hns, hpos, hred.trans heq, ?_, ?_⟩
        · intro j hj hji hne
          cases j with
          | zero => exact absurd hself hne
          | succ j' => exact hprevlt j' (by simpa using hj) (by omega) hne
        · intro j hj hne
          cases j with
          | zero => exact absurd hself hne
          | succ j' => exact halle j' (by simpa using hj) hne
    · by_cases hpos : 0 < resourceDelta resource c
      · have hcond : 0 < resourceDelta resource c ∧
            gtMaxQ (resourceDelta resource c) none = true := ⟨hpos, rfl⟩
        have hred : detect_contenders_loop selfCid resource (c :: rest) none none =
            detect_contenders_loop selfCid resource rest (some c.cid)
              (some (resourceDelta resource c)) := by
          simp only [detect_contenders_loop]
          rw [if_neg hself, if_pos hcond]
        rcases detect_contenders_loop_invar selfCid resource rest c.cid
            (resourceDelta resource c) hpos with
          ⟨heq, hall⟩ | ⟨i, hi, hns, hlt, heq, hprevlt, halle⟩
        · right
          refine ⟨0, Nat.succ_pos _, hself, hpos, hred.trans heq, ?_, ?_⟩
          · intro j hj hji _
            omega
          · intro j hj hne
            cases j with
            | zero => exact le_refl _
            | succ j' => exact hall j' (by simpa using hj) hne
        · right
          refine ⟨i + 1, Nat.succ_lt_succ hi, hns, lt_trans hpos hlt, hred.trans heq, ?_, ?_⟩
          · intro j hj hji hne
            cases j with
            | zero => exact hlt
            | succ j' => exact hprevlt j' (by simpa using hj) (by omega) hne
          · intro j hj hne
            cases j with
            | zero => exact le_of_lt hlt
            | succ j' => exact halle j' (by simpa using hj) hne
      · have hcond : ¬ (0 < resourceDelta resource c ∧
            gtMaxQ (resourceDelta resource c) none = true) := fun h => hpos h.1
        have hred : detect_contenders_loop selfCid resource (c :: rest) none none =
            detect_contenders_loop selfCid resource rest none none := by
          simp only [detect_contenders_loop]
          rw [if_neg hself, if_neg hcond]
        rcases ih with ⟨heq, hall⟩ | ⟨i, hi, hns, hipos, heq, hprevlt, halle⟩
        · left
          refine ⟨hred.trans heq, ?_⟩
          intro j hj hne
          cases j with
          | zero => exact not_lt.mp hpos
          | succ j' => exact hall j' (by simpa using hj) hne
        · right
          refine ⟨i + 1, Nat.succ_lt_succ hi, hns, hipos, hred.trans heq, ?_, ?_⟩
          · intro j hj hji hne
            cases j with
            | zero => exact lt_of_le_of_lt (not_lt.mp hpos) hipos
            | succ j' => exact hprevlt j' (by simpa using hj) (by omega) hne
          · intro j hj hne
            cases j with
            | zero => exact le_trans (not_lt.mp hpos) (le_of_lt hipos)
            | succ j' => exact halle j' (by simpa using hj) hne

theorem findFlag_setFlag_self (r : Res) :
    ∀ acc : List (Res × Bool), findFlag (setFlag acc r) r = some true := by
  intro acc
  induction acc with
  | nil => simp [setFlag, findFlag]
  | cons p rest ih =>
    by_cases h : p.1 = r
    · simp [setFlag, findFlag, h]
    · have hs : setFlag (p :: rest) r = p :: setFlag rest r := by
        cases p with
        | mk a b =>
          simp only [setFlag]
          rw [if_neg h]
      rw [hs]
      simpa [findFlag, List.find?_cons, h] using ih

theorem findFlag_setFlag_other (r r2 : Res) (hne : r ≠ r2) :
    ∀ acc : List (Res × Bool), findFlag (setFlag acc r2) r = findFlag acc r := by
  intro acc
  induction acc with
  | nil =>
    have hba : (r2 == r) = false := beq_eq_false_iff_ne.mpr fun h => hne h.symm
    simp [setFlag, findFlag, hba]
  | cons p rest ih =>
    by_cases h : p.1 = r2
    · have hs : setFlag (p :: rest) r2 = (p.1, true) :: rest := by
        cases p with
        | mk a b =>
          simp only [setFlag]
          rw [if_pos h]
      rw [hs]
      have hpr : ¬ p.1 = r := fun hc => hne (hc ▸ h)
      simp [findFlag, List.find?_cons, hpr]
    · have hs : setFlag (p :: rest) r2 = p :: setFlag rest r2 := by
        cases p with
        | mk a b =>
          simp only [setFlag]
          rw [if_neg h]
      rw [hs]
      by_cases hpr : p.1 = r
      · simp [findFlag, List.find?_cons, hpr]
      · simpa [findFlag, List.find?_cons, hpr] using ih

theorem findFlag_foldl_setFlag (r : Res) :
    ∀ (l : List Res) (acc : List (Res × Bool)) (v : Bool),
      findFlag acc r = some v →
      findFlag (l.foldl setFlag acc) r = some (v || l.contains r) := by
  intro l
  induction l with
  | nil =>
    intro acc v h
    simpa using h
  | cons a rest ih =>
    intro acc v h
    by_cases ha : a = r
    · subst ha
      have h2 := ih (setFlag acc a) true (findFlag_setFlag_self a acc)
      simpa [List.contains_cons] using h2
    · have h1 : findFlag (setFlag acc a) r = some v := by
        rw [findFlag_setFlag_other r a (fun hc => ha hc.symm)]
        exact h
      have hba : (r == a) = false := beq_eq_false_iff_ne.mpr fun hc => ha hc.symm
      have hcc : (a :: rest).contains r = rest.contains r := by
        rw [List.contains_cons, hba, Bool.false_or]
      simp only [List.foldl_cons]
      rw [hcc]
      exact ih (setFlag acc a) v h1

theorem contentionFlags_find_mb (anomalies : List Res) :
    findFlag (contentionFlags anomalies) Res.MEMORY_BW =
      some (anomalies.contains Res.MEMORY_BW) := by
  have h0 : findFlag [(Res.LLC, false), (Res.MEMORY_BW, false), (Res.UNKN, false)]
      Res.MEMORY_BW = some false := rfl
  simpa using findFlag_foldl_setFlag Res.MEMORY_BW anomalies _ false h0

theorem mem_allocate_resources_mb (ctl : Controllers) (anomalies : List Res) :
    UpdateCall.mk ctl.memory_bw (anomalies.contains Res.MEMORY_BW) ∈
      allocate_resources ctl anomalies := by
  have hf := contentionFlags_find_mb anomalies
  unfold findFlag at hf
  cases hfind : (contentionFlags anomalies).find? fun rb => rb.1 == Res.MEMORY_BW with
  | none => rw [hfind] at hf; simp at hf
  | some p =>
    rw [hfind] at hf
    simp only [Option.map] at hf
    have hp2 : p.2 = anomalies.contains Res.MEMORY_BW := Option.some.inj hf
    have hp1 : p.1 = Res.MEMORY_BW := by
      have := List.find?_some hfind
      simpa using this
    have hmem : p ∈ contentionFlags anomalies := List.mem_of_find?_eq_some hfind
    unfold allocate_resources
    apply List.mem_filterMap.mpr
    refine ⟨p, hmem, ?_⟩
    rw [hp1]
    simp [lookupController, hp2]

theorem allocate_resources_targets (ctl : Controllers) (anomalies : List Res) :
    ∀ call ∈ allocate_resources ctl anomalies,
      call.target = ctl.cpus ∨ call.target = ctl.llc ∨ call.target = ctl.memory_bw := by
  intro call hcall
  rcases List.mem_filterMap.mp hcall with ⟨rb, _, hmap⟩
  cases rb with
  | mk r b =>
    cases r with
    | CPUS =>
      simp only [lookupController, Option.map_some] at hmap
      left
      rw [← Option.some.inj hmap]
    | LLC =>
      simp only [lookupController, Option.map_some] at hmap
      right; left
      rw [← Option.some.inj hmap]
    | MEMORY_BW =>
      simp only [lookupController, Option.map_some] at hmap
      right; right
      rw [← Option.some.inj hmap]
    | TDP => simp [lookupController] at hmap
    | UNKN => simp [lookupController] at hmap

theorem updateMbcStep_controllers_false (s : AllocState) :
    (updateMbcStep s false).controllers =
      ⟨s.controllers.cpus, s.controllers.llc, s.controllers.cpus⟩ := by
  simp [updateMbcStep]

theorem runMbcSteps_cons (s : AllocState) (f : Bool) (rest : List Bool) :
    runMbcSteps s (f :: rest) = runMbcSteps (updateMbcStep s f) rest := rfl

theorem runMbcSteps_append (s : AllocState) (a b : List Bool) :
    runMbcSteps s (a ++ b) = runMbcSteps (runMbcSteps s a) b := by
  simp [runMbcSteps, List.foldl_append]

theorem runMbcSteps_cpus (l : List Bool) :
    ∀ s : AllocState, (runMbcSteps s l).controllers.cpus = s.controllers.cpus := by
  induction l with
  | nil => intro s; rfl
  | cons f rest ih =>
    intro s
    rw [runMbcSteps_cons, ih]
    cases f <;> simp [updateMbcStep]

theorem runMbcSteps_mb_persist (l : List Bool) :
    ∀ s : AllocState,
      s.controllers.memory_bw = CtlId.cpu → s.controllers.cpus = CtlId.cpu →
      (runMbcSteps s l).controllers.memory_bw = CtlId.cpu := by
  induction l with
  | nil => intro s hmb _; exact hmb
  | cons f rest ih =>
    intro s hmb hcpu
    rw [runMbcSteps_cons]
    cases f
    · exact ih _ (by simp [updateMbcStep, hcpu]) (by simp [updateMbcStep, hcpu])
    · exact ih _ (by simp [updateMbcStep, hmb]) (by simp [updateMbcStep, hcpu])

theorem runMbcSteps_enabled (l : List Bool) :
    ∀ s : AllocState, (runMbcSteps s l).mbc_enabled = l.getLastD s.mbc_enabled := by
  induction l with
  | nil => intro s; rfl
  | cons f rest ih =>
    intro s
    rw [runMbcSteps_cons, ih]
    have hf : (updateMbcStep s f).mbc_enabled = f := by
      cases f <;> simp [updateMbcStep]
    rw [hf, List.getLastD_cons]

theorem succ_mod_split (n r : ℕ) (hr : 0 < r) :
    (n + 1) % r = if n % r + 1 = r then 0 else n % r + 1 := by
  have hn : r * (n / r) + n % r = n := Nat.div_add_mod n r
  have e : n + 1 = r * (n / r) + (n % r + 1) := by omega
  split
  next h =>
    rw [e, Nat.mul_add_mod]
    rw [h, Nat.mod_self]
  next h =>
    have hlt : n % r < r := Nat.mod_lt _ hr
    rw [e, Nat.mul_add_mod]
    exact Nat.mod_eq_of_lt (by omega)

theorem runAgg_mod (r : ℕ) (hr : 0 < r) :
    ∀ n : ℕ, (runAgg (r : ℚ) n).1 = n % r ∧
      ((runAgg (r : ℚ) n).2 = true ↔ (0 < n ∧ n % r = 0)) := by
  intro n
  induction n with
  | zero =>
    constructor
    · simp [runAgg]
    · simp [runAgg]
  | succ m ihm =>
    have hstep : runAgg (r : ℚ) (m + 1) = stepAgg (r : ℚ) (m % r) := by
      show stepAgg (r : ℚ) (runAgg (r : ℚ) m).1 = _
      rw [ihm.1]
    have hcast : (((m % r + 1 : ℕ) : ℚ) = (r : ℚ)) ↔ m % r + 1 = r := Nat.cast_inj
    by_cases h : m % r + 1 = r
    · have : stepAgg (r : ℚ) (m % r) = (0, true) := by
        unfold stepAgg
        rw [if_pos (hcast.mpr h)]
      rw [hstep, this]
      have hmod : (m + 1) % r = 0 := by rw [succ_mod_split m r hr, if_pos h]
      exact ⟨hmod.symm, by simp [hmod]⟩
    · have : stepAgg (r : ℚ) (m % r) = (m % r + 1, false) := by
        unfold stepAgg
        rw [if_neg (fun hc => h (hcast.mp hc))]
      rw [hstep, this]
      have hmod : (m + 1) % r = m % r + 1 := by rw [succ_mod_split m r hr, if_neg h]
      constructor
      · exact hmod.symm
      · simp only [Bool.false_eq_true, false_iff]
        intro hc
        omega

/-! ## Claim theorems -/

/-- C8: in detect mode, when the platform snapshot reports memory-bandwidth
hardware control unavailable, the cycle's MEMORY_BW contention flag is
dispatched to the CPU controller (which also receives its own margin
dispatch), and no update call of the cycle targets the memory-bandwidth
controller.  The hypotheses on `s` hold in every reachable allocator state:
`controllers[CPUS]` is never reassigned and `controllers[LLC]` is never
aliased to the memory-bandwidth controller. -/
theorem C8_mb_disabled_routes_to_cpu (s : AllocState) (hasBes marginExceed : Bool)
    (anomalies : List Res)
    (hcpu : s.controllers.cpus = CtlId.cpu) (hllc : s.controllers.llc ≠ CtlId.mb) :
    UpdateCall.mk CtlId.cpu (anomalies.contains Res.MEMORY_BW) ∈
      (detectModeDispatch s false hasBes marginExceed anomalies).2 ∧
    ∀ call ∈ (detectModeDispatch s false hasBes marginExceed anomalies).2,
      call.target ≠ CtlId.mb := by
  have hctl : (updateMbcStep s false).controllers =
      ⟨s.controllers.cpus, s.controllers.llc, s.controllers.cpus⟩ :=
    updateMbcStep_controllers_false s
  have hdisp : (detectModeDispatch s false hasBes marginExceed anomalies).2 =
      (if hasBes then
        [UpdateCall.mk (updateMbcStep s false).controllers.cpus marginExceed] else []) ++
        allocate_resources (updateMbcStep s false).controllers anomalies := rfl
  constructor
  · rw [hdisp]
    apply List.mem_append_right
    have h := mem_allocate_resources_mb (updateMbcStep s false).controllers anomalies
    rw [hctl] at h ⊢
    simpa [hcpu] using h
  · intro call hcall
    rw [hdisp] at hcall
    rcases List.mem_append.mp hcall with hm | hm
    · cases hasBes with
      | false => simp at hm
      | true =>
        simp only [if_pos] at hm
        have : call = UpdateCall.mk (updateMbcStep s false).controllers.cpus marginExceed := by
          simpa using hm
        rw [this, hctl]
        simp [hcpu]
    · rcases allocate_resources_targets _ _ call hm with h | h | h <;>
        rw [h, hctl] <;> simp [hcpu, hllc]

/-- C8 witness: from the detect-mode initial state, with best-effort tasks
present and one LLC plus one MEMORY_BW anomaly. -/
theorem C8_mb_disabled_routes_to_cpu_witness :
    UpdateCall.mk CtlId.cpu ([Res.LLC, Res.MEMORY_BW].contains Res.MEMORY_BW) ∈
      (detectModeDispatch initAllocState false true false [Res.LLC, Res.MEMORY_BW]).2 ∧
    ∀ call ∈ (detectModeDispatch initAllocState false true false [Res.LLC, Res.MEMORY_BW]).2,
      call.target ≠ CtlId.mb :=
  C8_mb_disabled_routes_to_cpu initAllocState true false [Res.LLC, Res.MEMORY_BW] rfl
    (by decide)

/-- C9: once any detect-mode cycle observes the memory-bandwidth control
capability disabled, `controllers[MEMORY_BW]` stays aliased to the CPU
controller for every later cycle, even if later snapshots report the
capability enabled again; re-enabling only tracks the `mbc_enabled` flag
(which always equals the most recent snapshot's capability bit). -/
theorem C9_alias_persists (flags more : List Bool) (hdis : false ∈ flags) :
    (runMbcSteps initAllocState (flags ++ more)).controllers.memory_bw = CtlId.cpu ∧
    (runMbcSteps initAllocState (flags ++ more)).mbc_enabled =
      (flags ++ more).getLastD true := by
  constructor
  · rcases List.append_of_mem hdis with ⟨l1, l2, rfl⟩
    have e : (l1 ++ false :: l2) ++ more = l1 ++ (false :: (l2 ++ more)) := by simp
    rw [e, runMbcSteps_append, runMbcSteps_cons]
    have hcpu1 : (runMbcSteps initAllocState l1).controllers.cpus = CtlId.cpu :=
      runMbcSteps_cpus l1 initAllocState
    apply runMbcSteps_mb_persist
    · rw [updateMbcStep_controllers_false]
      exact hcpu1
    · rw [updateMbcStep_controllers_false]
      exact hcpu1
  · exact runMbcSteps_enabled (flags ++ more) initAllocState

/-- C9 witness: disable then re-enable; the alias stays on the CPU
controller while `mbc_enabled` is restored to `true`. -/
theorem C9_alias_persists_witness :
    (runMbcSteps initAllocState ([false] ++ [true])).controllers.memory_bw = CtlId.cpu ∧
    (runMbcSteps initAllocState ([false] ++ [true])).mbc_enabled =
      ([false] ++ [true]).getLastD true :=
  C9_alias_persists [false] [true] (by simp)

/-- C10: calling `contention_detect` with an empty (falsy) threshold-bin
sequence returns no anomalies and no diagnostic metrics, for every metric
set (and hence without depending on any metric value). -/
theorem C10_empty_bins (m : Metrics) : contention_detect m [] = some ([], []) := rfl

/-- C10 witness at a concrete metric set. -/
theorem C10_empty_bins_witness :
    contention_detect ⟨1, 2, 3, 4, 5, 6, 7, 8, 9⟩ [] = some ([], []) :=
  C10_empty_bins ⟨1, 2, 3, 4, 5, 6, 7, 8, 9⟩

/-- C5: the history-delta operation returns 0 on an empty metric history,
the sole entry's value on a single-entry history, and otherwise the latest
entry's value minus the arithmetic mean of all earlier entries' values. -/
theorem C5_history_delta (c : Container) (k : MKey) :
    (c.metrics_history = [] → c.get_history_delta_by_Type k = 0) ∧
    (∀ mt : Metrics, c.metrics_history = [mt] → c.get_history_delta_by_Type k = mt.get k) ∧
    (∀ (l : List Metrics) (mt : Metrics), c.metrics_history = l ++ [mt] → l ≠ [] →
      c.get_history_delta_by_Type k =
        mt.get k - ((l.map fun x => x.get k).sum) / (l.length : ℚ)) := by
  refine ⟨?_, ?_, ?_⟩
  · intro h
    simp [Container.get_history_delta_by_Type, h]
  · intro mt h
    simp [Container.get_history_delta_by_Type, h]
  · intro l mt h hne
    have hpos : l.length ≠ 0 := fun h0 => hne (List.length_eq_zero.mp h0)
    unfold Container.get_history_delta_by_Type
    rw [h]
    have hlen : (l ++ [mt]).length = l.length + 1 := by simp
    rw [hlen]
    rw [if_neg (by omega : ¬ l.length + 1 = 0), if_neg (by omega : ¬ l.length + 1 = 1)]
    have hgd : (l ++ [mt]).getD (l.length + 1 - 1) default = mt := by
      have : l.length + 1 - 1 = l.length := by omega
      rw [this, List.getD_eq_getElem?_getD, List.getElem?_concat_length]
      rfl
    have htk : (l ++ [mt]).take (l.length + 1 - 1) = l := by
      have : l.length + 1 - 1 = l.length := by omega
      rw [this, List.take_left]
    rw [hgd, htk]
    simp

/-- C5 witness at a three-entry history. -/
theorem C5_history_delta_witness :
    (Container.mk "w5" none none 0 0 0 6
        [⟨0, 0, 0, 2, 0, 0, 0, 0, 0⟩, ⟨0, 0, 0, 4, 0, 0, 0, 0, 0⟩,
         ⟨0, 0, 0, 9, 0, 0, 0, 0, 0⟩]).get_history_delta_by_Type MKey.l3occ =
      9 - (2 + 4 + 0) / 2 :=
  ((C5_history_delta _ MKey.l3occ).2.2
      [⟨0, 0, 0, 2, 0, 0, 0, 0, 0⟩, ⟨0, 0, 0, 4, 0, 0, 0, 0, 0⟩]
      ⟨0, 0, 0, 9, 0, 0, 0, 0, 0⟩ rfl (by simp)).trans (by norm_num [Metrics.get])

/-- C2: bin selection over a non-empty ordered threshold-bin sequence, by
task utilization: strictly below the first bin's start, no anomaly is
reported regardless of CPI; at or above the last bin's end, the last bin is
evaluated; within `[util_start_i, util_end_i)`, bin `i` is evaluated; in a
gap strictly below bin `i+1`'s start but at or above bin `i`'s end, bin `i`
is evaluated. -/
theorem C2_bin_selection (threshs : List Thresh) (m : Metrics)
    (hlen : 0 < threshs.length) (hord : binsOrdered threshs) :
    (m.util < (threshs.get ⟨0, hlen⟩).util_start →
      contention_detect m threshs = some ([], [])) ∧
    ((threshs.get ⟨threshs.length - 1, by omega⟩).util_end ≤ m.util →
      contention_detect m threshs =
        some (detect_in_bin m (threshs.get ⟨threshs.length - 1, by omega⟩))) ∧
    (∀ i (hi : i < threshs.length),
      (threshs.get ⟨i, hi⟩).util_start ≤ m.util →
      m.util < (threshs.get ⟨i, hi⟩).util_end →
      contention_detect m threshs = some (detect_in_bin m (threshs.get ⟨i, hi⟩))) ∧
    (∀ i (hi1 : i + 1 < threshs.length),
      m.util < (threshs.get ⟨i + 1, hi1⟩).util_start →
      (threshs.get ⟨i, Nat.lt_of_succ_lt hi1⟩).util_end ≤ m.util →
      contention_detect m threshs =
        some (detect_in_bin m (threshs.get ⟨i, Nat.lt_of_succ_lt hi1⟩))) := by
  have hne : threshs ≠ [] := List.length_pos.mp hlen
  have hcd := contention_detect_of_ne_nil m threshs hne
  refine ⟨?_, ?_, ?_, ?_⟩
  · intro hlt
    rw [hcd]
    cases threshs with
    | nil => simp at hlen
    | cons t rest =>
      cases rest with
      | nil =>
        simp only [contention_detect_loop]
        exact if_pos hlt
      | cons t2 r =>
        simp only [contention_detect_loop]
        exact if_pos hlt
  · intro hge
    rw [hcd]
    apply contention_detect_loop_hit m threshs none (threshs.length - 1) (by omega) hord
    · calc (threshs.get ⟨threshs.length - 1, by omega⟩).util_start
          ≤ (threshs.get ⟨threshs.length - 1, by omega⟩).util_end :=
            binsOrdered_start_le_end threshs hord _ _
        _ ≤ m.util := hge
    · exact Or.inr rfl
  · intro i hi hstart hend
    rw [hcd]
    exact contention_detect_loop_hit m threshs none i hi hord hstart (Or.inl hend)
  · intro i hi1 hlt hge
    rw [hcd]
    exact contention_detect_loop_gap m threshs none i hi1 hord hlt hge

/-- C2 witness: utilization 55 falls in the gap between a bin ending at 50
and a bin starting at 60; the lower bin is evaluated. -/
theorem C2_bin_selection_witness :
    contention_detect ⟨0, 0, 0, 0, 2, 10, 55, 150, 0⟩
        [⟨0, 50, 1, 5, 200⟩, ⟨60, 100, 1, 5, 200⟩] =
      some (detect_in_bin ⟨0, 0, 0, 0, 2, 10, 55, 150, 0⟩ ⟨0, 50, 1, 5, 200⟩) :=
  (C2_bin_selection [⟨0, 50, 1, 5, 200⟩, ⟨60, 100, 1, 5, 200⟩] ⟨0, 0, 0, 0, 2, 10, 55, 150, 0⟩
      (by norm_num) (by refine ⟨by norm_num, by norm_num, by norm_num [binsOrdered]⟩)).2.2.2 0
    (by norm_num) (by norm_num) (by norm_num)

/-- C3: evaluating a task against a chosen threshold bin emits nothing when
CPI is at or below the bin's CPI threshold; when CPI exceeds it, an LLC
anomaly fires iff MPKI exceeds its threshold, a MEMORY_BW anomaly fires iff
bandwidth is below its threshold (both can fire together), an UNKN anomaly
fires iff neither sub-condition fired, and diagnostic metrics are emitted. -/
theorem C3_detect_in_bin (m : Metrics) (t : Thresh) :
    (m.cpi ≤ t.cpi → detect_in_bin m t = ([], [])) ∧
    (t.cpi < m.cpi →
      (Res.LLC ∈ (detect_in_bin m t).1 ↔ t.mpki < m.l3mpki) ∧
      (Res.MEMORY_BW ∈ (detect_in_bin m t).1 ↔ m.mb < t.mb) ∧
      (Res.UNKN ∈ (detect_in_bin m t).1 ↔ (¬ t.mpki < m.l3mpki ∧ ¬ m.mb < t.mb)) ∧
      (detect_in_bin m t).2 ≠ []) := by
  constructor
  · intro h
    simp [detect_in_bin, not_lt.mpr h]
  · intro h
    by_cases h1 : t.mpki < m.l3mpki <;> by_cases h2 : m.mb < t.mb <;>
      simp [detect_in_bin, h, h1, h2]

/-- C3 witness: CPI above threshold with both sub-conditions firing. -/
theorem C3_detect_in_bin_witness :
    (Res.LLC ∈ (detect_in_bin ⟨0, 0, 0, 0, 3/2, 10, 50, 150, 0⟩ ⟨0, 100, 1, 5, 200⟩).1 ↔
       (5 : ℚ) < 10) ∧
    (Res.MEMORY_BW ∈ (detect_in_bin ⟨0, 0, 0, 0, 3/2, 10, 50, 150, 0⟩ ⟨0, 100, 1, 5, 200⟩).1 ↔
       (150 : ℚ) < 200) :=
  ⟨((C3_detect_in_bin ⟨0, 0, 0, 0, 3/2, 10, 50, 150, 0⟩ ⟨0, 100, 1, 5, 200⟩).2
      (by norm_num)).1,
   ((C3_detect_in_bin ⟨0, 0, 0, 0, 3/2, 10, 50, 150, 0⟩ ⟨0, 100, 1, 5, 200⟩).2
      (by norm_num)).2.1⟩

/-- C4: contender attribution never returns the contended task itself, never
returns a task with a non-positive resource delta, returns at most one task
id — and when it returns one, it is the first-seen task attaining the
strictly maximal positive delta (every earlier live task has a strictly
smaller delta, every live task has a delta at most as large) — and for
resource kind `UNKN` always returns the empty list. -/
theorem C4_detect_contenders (con : Container) (resource : Res) (cmap : List Container) :
    (resource = Res.UNKN → detect_contenders con resource cmap = []) ∧
    (detect_contenders con resource cmap = [] ∨
      ∃ i, ∃ hi : i < cmap.length,
        detect_contenders con resource cmap = [(cmap.get ⟨i, hi⟩).cid] ∧
        con.cid ≠ (cmap.get ⟨i, hi⟩).cid ∧
        0 < resourceDelta resource (cmap.get ⟨i, hi⟩) ∧
        (∀ j (hj : j < cmap.length), j < i → con.cid ≠ (cmap.get ⟨j, hj⟩).cid →
          resourceDelta resource (cmap.get ⟨j, hj⟩) <
            resourceDelta resource (cmap.get ⟨i, hi⟩)) ∧
        (∀ j (hj : j < cmap.length), con.cid ≠ (cmap.get ⟨j, hj⟩).cid →
          resourceDelta resource (cmap.get ⟨j, hj⟩) ≤
            resourceDelta resource (cmap.get ⟨i, hi⟩))) := by
  constructor
  · intro h
    simp [detect_contenders, h]
  · by_cases hu : resource = Res.UNKN
    · left
      simp [detect_contenders, hu]
    · rcases detect_contenders_loop_top con.cid resource cmap with
        ⟨heq, _⟩ | ⟨i, hi, hns, hpos, heq, hprevlt, halle⟩
      · left
        simp [detect_contenders, hu, heq]
      · by_cases hemp : (cmap.get ⟨i, hi⟩).cid = ""
        · left
          have hemp2 : cmap[i].cid = "" := hemp
          simp [detect_contenders, hu, heq, hemp2]
        · right
          refine ⟨i, hi, ?_, hns, hpos, hprevlt, halle⟩
          have hemp2 : ¬ cmap[i].cid = "" := hemp
          simp [detect_contenders, hu, heq, hemp2]

/-- C4 witness: for resource kind `UNKN` the attribution is empty even with
a positive-delta live task present. -/
theorem C4_detect_contenders_witness :
    detect_contenders (Container.mkNew "self") Res.UNKN
      [{ Container.mkNew "other" with metrics := some ⟨0, 0, 0, 0, 0, 0, 0, 5, 0⟩ }] = [] :=
  (C4_detect_contenders (Container.mkNew "self") Res.UNKN
    [{ Container.mkNew "other" with metrics := some ⟨0, 0, 0, 0, 0, 0, 0, 5, 0⟩ }]).1 rfl

/-- C1: the claim says every `allocate` cycle completes and returns, in
particular when the LLC sample count is zero at an aggregation boundary.
The code contradicts this: at an aggregation boundary with a previous raw
snapshot and `llc_cnt = 0` (no positive occupancy sample since the last
boundary), line 126 of container.py divides `total_llc_occu` by `llc_cnt`
and raises `ZeroDivisionError`, killing the cycle.  This theorem evaluates
the embedded `update_measurement` at that failing input. -/
theorem C1_llc_zero_boundary_raises :
    Container.update_measurement
      { cid := "t1", metrics := none, measurements := some ⟨0, 100, 50, 10, 5, 7⟩,
        timestamp := 1, total_llc_occu := 0, llc_cnt := 0, history_depth := 6,
        metrics_history := [] }
      2 ⟨0, 200, 80, 20, 9, 8⟩ true = none := by
  decide

/-- C6: when `agg_period` is evenly divisible by `action_delay`, the
aggregation boundary fires exactly on the calls numbered by multiples of
`agg_period / action_delay`, and the cycle counter equals the call number
modulo that ratio (so it resets to 0 at each boundary); when not evenly
divisible, the ratio degenerates to 1 and every call is a boundary with the
counter pinned at 0. -/
theorem C6_aggregation_boundary (agg_period action_delay : ℕ)
    (hd : 0 < action_delay) (hp : 0 < agg_period) :
    (action_delay ∣ agg_period →
      ∀ n : ℕ,
        (runAgg (aggCnt agg_period action_delay) n).1 = n % (agg_period / action_delay) ∧
        ((runAgg (aggCnt agg_period action_delay) n).2 = true ↔
          (0 < n ∧ agg_period / action_delay ∣ n))) ∧
    (¬ action_delay ∣ agg_period →
      aggCnt agg_period action_delay = 1 ∧
      ∀ n : ℕ, 0 < n →
        (runAgg (aggCnt agg_period action_delay) n).1 = 0 ∧
        (runAgg (aggCnt agg_period action_delay) n).2 = true) := by
  constructor
  · intro hdvd n
    have hmod : agg_period % action_delay = 0 := Nat.dvd_iff_mod_eq_zero.mp hdvd
    have hr : 0 < agg_period / action_delay := Nat.div_pos (Nat.le_of_dvd hp hdvd) hd
    have hcnt : aggCnt agg_period action_delay = ((agg_period / action_delay : ℕ) : ℚ) := by
      unfold aggCnt
      rw [if_pos hmod]
      exact (Nat.cast_div hdvd (Nat.cast_ne_zero.mpr hd.ne')).symm
    rw [hcnt]
    obtain ⟨h1, h2⟩ := runAgg_mod (agg_period / action_delay) hr n
    refine ⟨h1, h2.trans ?_⟩
    exact and_congr_right fun _ => Nat.dvd_iff_mod_eq_zero.symm
  · intro hdvd
    have hmod : ¬ agg_period % action_delay = 0 :=
      fun h => hdvd (Nat.dvd_iff_mod_eq_zero.mpr h)
    have hcnt : aggCnt agg_period action_delay = 1 := by
      unfold aggCnt
      rw [if_neg hmod]
    refine ⟨hcnt, ?_⟩
    intro n hn
    have hone : (1 : ℚ) = ((1 : ℕ) : ℚ) := by norm_num
    rw [hcnt, hone]
    obtain ⟨h1, h2⟩ := runAgg_mod 1 one_pos n
    exact ⟨h1.trans (Nat.mod_one n), h2.mpr ⟨hn, Nat.mod_one n⟩⟩

/-- C6 witness: with `agg_period = 20` and `action_delay = 5`, call 8 is an
aggregation boundary. -/
theorem C6_aggregation_boundary_witness : (runAgg (aggCnt 20 5) 8).2 = true :=
  (((C6_aggregation_boundary 20 5 (by norm_num) (by norm_num)).1 (by norm_num) 8).2).mpr
    (by norm_num)

/-- C7: at an aggregation boundary whose division guards are reachable
(nonzero sample count, nonzero elapsed time), the derived-metric computation
completes without error, CPI and MPKI are exactly 0 whenever the
instructions-delta is 0, and normalized frequency is exactly 0 whenever the
computed utilization is 0. -/
theorem C7_zero_divisors_defined (c : Container) (prev : Meas) (m : Meas) (ts : ℚ)
    (hprev : c.measurements = some prev)
    (hllc : (sampleLlc c m).llc_cnt ≠ 0)
    (hdt : ts - c.timestamp ≠ 0) :
    ∃ c' mt, c.update_measurement ts m true = some c' ∧ c'.metrics = some mt ∧
      (m.instructions - prev.instructions = 0 → mt.cpi = 0 ∧ mt.l3mpki = 0) ∧
      (mt.util = 0 → mt.nf = 0) := by
  have hdt2 : ts - (sampleLlc c m).timestamp ≠ 0 := by rw [sampleLlc_timestamp]; exact hdt
  have hcm := computeMetrics_eq (sampleLlc c m) prev ts m hllc hdt2
  refine ⟨_, _, update_measurement_boundary c prev ts m _ hprev hcm, rfl, ?_, ?_⟩
  · intro h
    constructor <;> simp [h]
  · intro h
    simp only at h ⊢
    rw [if_pos h]

/-- C7 witness: a concrete boundary cycle with a zero instructions-delta and
a zero utilization. -/
theorem C7_zero_divisors_defined_witness :
    ∃ c' mt,
      Container.update_measurement
        { cid := "w7", metrics := none, measurements := some ⟨0, 100, 50, 10, 5, 7⟩,
          timestamp := 1, total_llc_occu := 3, llc_cnt := 2, history_depth := 6,
          metrics_history := [] }
        2 ⟨0, 200, 50, 20, 5, 8⟩ true = some c' ∧ c'.metrics = some mt ∧
      ((50 : ℚ) - 50 = 0 → mt.cpi = 0 ∧ mt.l3mpki = 0) ∧
      (mt.util = 0 → mt.nf = 0) :=
  C7_zero_divisors_defined
    { cid := "w7", metrics := none, measurements := some ⟨0, 100, 50, 10, 5, 7⟩,
      timestamp := 1, total_llc_occu := 3, llc_cnt := 2, history_depth := 6,
      metrics_history := [] }
    ⟨0, 100, 50, 10, 5, 7⟩ ⟨0, 200, 50, 20, 5, 8⟩ 2 rfl (by decide) (by norm_num)

end PRM
